import Mathlib

/-!
Verification of `process_hospital_files.py` (HealthPartners repository).

Strings are modelled as `List Char`.  Each definition embeds the Python
function of the same name; helper definitions embed the library primitives
(`str.strip`, `str.lower`, the two `re.sub` calls, the `csv` reader/writer,
`datetime.fromisoformat`, datetime comparison) at the granularity the
source uses them.
-/

namespace HospitalFiles

/-! ### Python string primitives -/

/-- ASCII alphanumeric, the character class `[a-zA-Z0-9]` of the regexes in
`to_snake_case`. -/
def isAlnumChar (c : Char) : Bool :=
  (65 ≤ c.toNat && c.toNat ≤ 90) || (97 ≤ c.toNat && c.toNat ≤ 122) ||
    (48 ≤ c.toNat && c.toNat ≤ 57)

/-- Characters stripped by Python `str.strip()` (the `str.isspace` set:
ASCII whitespace, the C1 separators, NEL, NBSP and the Unicode space
characters). -/
def pyIsSpace (c : Char) : Bool :=
  (9 ≤ c.toNat && c.toNat ≤ 13) || (28 ≤ c.toNat && c.toNat ≤ 32) ||
    c.toNat = 133 || c.toNat = 160 || c.toNat = 5760 ||
    (8192 ≤ c.toNat && c.toNat ≤ 8202) || c.toNat = 8232 || c.toNat = 8233 ||
    c.toNat = 8239 || c.toNat = 8287 || c.toNat = 12288

/-- Python `str.strip()`: drop leading and trailing whitespace. -/
def pyStrip (s : List Char) : List Char :=
  ((s.dropWhile pyIsSpace).reverse.dropWhile pyIsSpace).reverse

/-- The character class of `re.sub(r"[’'\",()\[\]{}]", "", name)`. -/
def punctChars : List Char :=
  [Char.ofNat 8217, Char.ofNat 39, Char.ofNat 34, Char.ofNat 44,
   Char.ofNat 40, Char.ofNat 41, Char.ofNat 91, Char.ofNat 93,
   Char.ofNat 123, Char.ofNat 125]

/-- `re.sub(r"[’'\",()\[\]{}]", "", name)`: delete the punctuation set. -/
def removePunct (s : List Char) : List Char :=
  s.filter (fun c => !(punctChars.contains c))

/-- `re.sub(r"[^a-zA-Z0-9]+", "_", name)`: each maximal run of
non-alphanumeric characters becomes one underscore.  The flag records
whether the previous character was part of such a run. -/
def collapseAux (b : Bool) : List Char → List Char
  | [] => []
  | c :: cs =>
    if isAlnumChar c then c :: collapseAux false cs
    else if b then collapseAux true cs
    else Char.ofNat 95 :: collapseAux true cs

def collapse (s : List Char) : List Char := collapseAux false s

/-- Python `str.lower()` restricted to ASCII (the only characters reaching
it in `to_snake_case` are ASCII alphanumerics and underscores). -/
def pyLowerChar (c : Char) : Char :=
  if 65 ≤ c.toNat && c.toNat ≤ 90 then Char.ofNat (c.toNat + 32) else c

/-- Python `str.strip("_")`: drop leading and trailing underscores. -/
def stripUnderscores (s : List Char) : List Char :=
  ((s.dropWhile (fun c => c = Char.ofNat 95)).reverse.dropWhile
    (fun c => c = Char.ofNat 95)).reverse

/-- `to_snake_case` from the source: strip whitespace, delete the fixed
punctuation set, collapse non-alphanumeric runs to single underscores,
lowercase, strip boundary underscores. -/
def to_snake_case (name : List Char) : List Char :=
  stripUnderscores ((collapse (removePunct (pyStrip name))).map pyLowerChar)

/-! ### HeaderToken shape -/

/-- Lowercase ASCII alphanumeric. -/
def isLowerAlnum (c : Char) : Bool :=
  (97 ≤ c.toNat && c.toNat ≤ 122) || (48 ≤ c.toNat && c.toNat ≤ 57)

/-- No two consecutive underscores. -/
def noDoubleUnderscore : List Char → Bool
  | [] => true
  | [_] => true
  | a :: b :: rest =>
    (!(a = Char.ofNat 95 && b = Char.ofNat 95)) && noDoubleUnderscore (b :: rest)

/-- The HeaderToken shape of the spec: only lowercase ASCII alphanumerics
and underscores, no leading or trailing underscore, no two consecutive
underscores. -/
def isHeaderToken (s : List Char) : Bool :=
  s.all (fun c => isLowerAlnum c || c = Char.ofNat 95) &&
    (s.head? ≠ some (Char.ofNat 95) : Bool) &&
    (s.getLast? ≠ some (Char.ofNat 95) : Bool) &&
    noDoubleUnderscore s

/-! ### Character-level lemmas -/

theorem char_toNat_inj {a b : Char} (h : a.toNat = b.toNat) : a = b := by
  apply Char.ext
  apply UInt32.ext
  exact h

theorem toNat_ofNat_valid (n : Nat) (h : n.isValidChar) : (Char.ofNat n).toNat = n := by
  have e : Char.ofNat n = Char.ofNatAux n h := by simp [Char.ofNat, h]
  rw [e]
  simp only [Char.ofNatAux, Char.toNat]
  change (BitVec.ofNatLt n _).toNat = n
  simp [BitVec.ofNatLt]

theorem toNat_ofNat_small (n : Nat) (h : n < 55296) : (Char.ofNat n).toNat = n :=
  toNat_ofNat_valid n (Or.inl h)

theorem eq_ofNat_iff (c : Char) (n : Nat) (h : n < 55296) :
    (c = Char.ofNat n) ↔ c.toNat = n := by
  constructor
  · intro hc
    rw [hc]
    exact toNat_ofNat_small n h
  · intro hc
    exact char_toNat_inj (by rw [hc, toNat_ofNat_small n h])

theorem isAlnumChar_iff (c : Char) : isAlnumChar c = true ↔
    (65 ≤ c.toNat ∧ c.toNat ≤ 90) ∨ (97 ≤ c.toNat ∧ c.toNat ≤ 122) ∨
      (48 ≤ c.toNat ∧ c.toNat ≤ 57) := by
  simp only [isAlnumChar, Bool.or_eq_true, Bool.and_eq_true, decide_eq_true_eq]
  tauto

theorem isLowerAlnum_iff (c : Char) : isLowerAlnum c = true ↔
    (97 ≤ c.toNat ∧ c.toNat ≤ 122) ∨ (48 ≤ c.toNat ∧ c.toNat ≤ 57) := by
  simp [isLowerAlnum]

theorem pyLowerChar_of_upper {c : Char} (h1 : 65 ≤ c.toNat) (h2 : c.toNat ≤ 90) :
    (pyLowerChar c).toNat = c.toNat + 32 := by
  unfold pyLowerChar
  have hb : (65 ≤ c.toNat && c.toNat ≤ 90) = true := by
    simp only [Bool.and_eq_true, decide_eq_true_eq]
    exact ⟨h1, h2⟩
  rw [if_pos hb]
  exact toNat_ofNat_small _ (by omega)

theorem pyLowerChar_of_not_upper {c : Char} (h : ¬(65 ≤ c.toNat ∧ c.toNat ≤ 90)) :
    pyLowerChar c = c := by
  unfold pyLowerChar
  have hb : (65 ≤ c.toNat && c.toNat ≤ 90) = false := by
    simp only [Bool.and_eq_false_iff]
    by_cases h1 : 65 ≤ c.toNat
    · right
      simp only [decide_eq_false_iff_not]
      omega
    · left
      simp only [decide_eq_false_iff_not]
      omega
  rw [if_neg (by simp [hb])]

theorem pyLowerChar_usc_iff (c : Char) :
    pyLowerChar c = Char.ofNat 95 ↔ c = Char.ofNat 95 := by
  rw [eq_ofNat_iff _ _ (by omega), eq_ofNat_iff _ _ (by omega)]
  by_cases h : 65 ≤ c.toNat ∧ c.toNat ≤ 90
  · rw [pyLowerChar_of_upper h.1 h.2]
    omega
  · rw [pyLowerChar_of_not_upper h]

theorem lower_of_alnum_or_usc {c : Char}
    (h : isAlnumChar c = true ∨ c = Char.ofNat 95) :
    (isLowerAlnum (pyLowerChar c) || pyLowerChar c = Char.ofNat 95) = true := by
  rcases h with h | h
  · rcases (isAlnumChar_iff c).mp h with h1 | h1 | h1
    · simp only [Bool.or_eq_true, decide_eq_true_eq]
      left
      rw [isLowerAlnum_iff, pyLowerChar_of_upper h1.1 h1.2]
      omega
    · rw [pyLowerChar_of_not_upper (c := c) (by omega)]
      simp only [Bool.or_eq_true, decide_eq_true_eq]
      left
      rw [isLowerAlnum_iff]
      omega
    · rw [pyLowerChar_of_not_upper (c := c) (by omega)]
      simp only [Bool.or_eq_true, decide_eq_true_eq]
      left
      rw [isLowerAlnum_iff]
      omega
  · have h95 : c.toNat = 95 := (eq_ofNat_iff c 95 (by omega)).mp h
    rw [pyLowerChar_of_not_upper (c := c) (by omega)]
    simp only [Bool.or_eq_true, decide_eq_true_eq]
    right
    exact h

theorem pyLowerChar_fix {c : Char}
    (h : (isLowerAlnum c || c = Char.ofNat 95) = true) : pyLowerChar c = c := by
  apply pyLowerChar_of_not_upper
  rcases (Bool.or_eq_true _ _).mp h with h1 | h1
  · rcases (isLowerAlnum_iff c).mp h1 with h2 | h2 <;> omega
  · have : c.toNat = 95 :=
      (eq_ofNat_iff c 95 (by omega)).mp (by simpa using h1)
    omega

/-! ### `collapse` invariants -/

theorem mem_collapseAux {c : Char} :
    ∀ (s : List Char) (b : Bool), c ∈ collapseAux b s →
      c = Char.ofNat 95 ∨ isAlnumChar c = true := by
  intro s
  induction s with
  | nil => intro b h; simp [collapseAux] at h
  | cons a t ih =>
    intro b h
    by_cases ha : isAlnumChar a = true
    · rw [collapseAux, if_pos ha] at h
      rcases List.mem_cons.mp h with h1 | h1
      · right; rw [h1]; exact ha
      · exact ih false h1
    · rw [collapseAux, if_neg ha] at h
      cases b with
      | true => exact ih true (by simpa using h)
      | false =>
        rcases List.mem_cons.mp (by simpa using h) with h1 | h1
        · left; exact h1
        · exact ih true h1

theorem head_collapseAux_true {c : Char} :
    ∀ (s : List Char), (collapseAux true s).head? = some c → isAlnumChar c = true := by
  intro s
  induction s with
  | nil => intro h; simp [collapseAux] at h
  | cons a t ih =>
    intro h
    by_cases ha : isAlnumChar a = true
    · rw [collapseAux, if_pos ha] at h
      simp only [List.head?_cons, Option.some.injEq] at h
      rw [← h]
      exact ha
    · rw [collapseAux, if_neg ha] at h
      exact ih (by simpa using h)

/-- The "no two consecutive underscores" relation, as a chain. -/
def Rusc (a b : Char) : Prop := ¬(a = Char.ofNat 95 ∧ b = Char.ofNat 95)

theorem noDouble_iff_chain :
    ∀ (l : List Char), noDoubleUnderscore l = true ↔ l.Chain' Rusc := by
  intro l
  induction l with
  | nil => simp [noDoubleUnderscore]
  | cons a t ih =>
    cases t with
    | nil => simp [noDoubleUnderscore]
    | cons b t2 =>
      rw [List.chain'_cons, ← ih]
      simp only [noDoubleUnderscore, Bool.and_eq_true, Bool.not_eq_true']
      constructor
      · rintro ⟨h1, h2⟩
        refine ⟨?_, h2⟩
        intro hab
        rw [hab.1, hab.2] at h1
        simp at h1
      · rintro ⟨h1, h2⟩
        refine ⟨?_, h2⟩
        unfold Rusc at h1
        by_cases e1 : a = Char.ofNat 95
        · by_cases e2 : b = Char.ofNat 95
          · exact absurd ⟨e1, e2⟩ h1
          · simp [e2]
        · simp [e1]

theorem alnum_ne_usc {c : Char} (h : isAlnumChar c = true) : ¬ c = Char.ofNat 95 := by
  rw [eq_ofNat_iff _ _ (by omega)]
  rcases (isAlnumChar_iff c).mp h with h1 | h1 | h1 <;> omega

theorem chain_collapseAux : ∀ (s : List Char) (b : Bool), (collapseAux b s).Chain' Rusc := by
  intro s
  induction s with
  | nil => intro b; simp [collapseAux]
  | cons a t ih =>
    intro b
    by_cases ha : isAlnumChar a = true
    · rw [collapseAux, if_pos ha]
      rw [List.chain'_cons']
      refine ⟨?_, ih false⟩
      intro c _
      exact fun hab => alnum_ne_usc ha hab.1
    · rw [collapseAux, if_neg ha]
      cases b with
      | true => simpa using ih true
      | false =>
        simp only [Bool.false_eq_true, if_false]
        rw [List.chain'_cons']
        refine ⟨?_, ih true⟩
        intro c hc
        have h1 := head_collapseAux_true t hc
        exact fun hab => alnum_ne_usc h1 hab.2

/-! ### `stripUnderscores` lemmas -/

theorem head?_dropWhile_ne {p : Char → Bool} {c : Char} :
    ∀ (l : List Char), (l.dropWhile p).head? = some c → p c = false := by
  intro l
  induction l with
  | nil => intro h; simp [List.dropWhile] at h
  | cons a t ih =>
    intro h
    cases ha : p a with
    | true =>
      rw [List.dropWhile, ha] at h
      exact ih h
    | false =>
      rw [List.dropWhile, ha] at h
      have h2 : (a :: t).head? = some c := h
      simp only [List.head?_cons, Option.some.injEq] at h2
      rw [← h2]
      exact ha

theorem getLast?_of_suffix {l' l : List Char} (h : l' <:+ l) (hne : l' ≠ []) :
    l'.getLast? = l.getLast? := by
  obtain ⟨t, rfl⟩ := h
  exact (List.getLast?_append_of_ne_nil t hne).symm

theorem mem_stripUnderscores {c : Char} {l : List Char} (h : c ∈ stripUnderscores l) :
    c ∈ l := by
  unfold stripUnderscores at h
  rw [List.mem_reverse] at h
  have h1 := (List.dropWhile_suffix _).subset h
  rw [List.mem_reverse] at h1
  exact (List.dropWhile_suffix _).subset h1

theorem head?_stripUnderscores_ne {c : Char} {l : List Char}
    (h : (stripUnderscores l).head? = some c) : ¬ c = Char.ofNat 95 := by
  unfold stripUnderscores at h
  rw [List.head?_reverse] at h
  set A := (l.dropWhile fun c => c = Char.ofNat 95).reverse with hA
  have hne : A.dropWhile (fun c => c = Char.ofNat 95) ≠ [] := by
    intro he
    rw [he] at h
    simp at h
  rw [getLast?_of_suffix (List.dropWhile_suffix _) hne, hA,
    List.getLast?_reverse] at h
  have := head?_dropWhile_ne _ h
  simpa using this

theorem getLast?_stripUnderscores_ne {c : Char} {l : List Char}
    (h : (stripUnderscores l).getLast? = some c) : ¬ c = Char.ofNat 95 := by
  unfold stripUnderscores at h
  rw [List.getLast?_reverse] at h
  have := head?_dropWhile_ne _ h
  simpa using this

theorem chain_stripUnderscores {l : List Char} (h : l.Chain' Rusc) :
    (stripUnderscores l).Chain' Rusc := by
  have hflip : ∀ (m : List Char), m.Chain' Rusc → m.reverse.Chain' Rusc := by
    intro m hm
    rw [List.chain'_reverse]
    exact hm.imp (fun a b hab h2 => hab ⟨h2.2, h2.1⟩)
  unfold stripUnderscores
  apply hflip
  apply List.Chain'.suffix _ (List.dropWhile_suffix _)
  apply hflip
  exact h.suffix (List.dropWhile_suffix _)

/-! ### The HeaderToken shape of `to_snake_case` output -/

theorem isHeaderToken_to_snake_case (s : List Char) :
    isHeaderToken (to_snake_case s) = true := by
  unfold isHeaderToken to_snake_case
  set M := (collapse (removePunct (pyStrip s))).map pyLowerChar with hM
  simp only [Bool.and_eq_true]
  refine ⟨⟨⟨?_, ?_⟩, ?_⟩, ?_⟩
  · rw [List.all_eq_true]
    intro c hc
    have h1 := mem_stripUnderscores hc
    rw [hM, List.mem_map] at h1
    obtain ⟨d, hd, rfl⟩ := h1
    exact lower_of_alnum_or_usc (Or.symm (mem_collapseAux _ false hd))
  · rw [decide_eq_true_eq]
    intro h
    match he : (stripUnderscores M).head? with
    | none => rw [he] at h; exact Option.noConfusion h
    | some c =>
      rw [he] at h
      exact head?_stripUnderscores_ne he (Option.some.inj h)
  · rw [decide_eq_true_eq]
    intro h
    match he : (stripUnderscores M).getLast? with
    | none => rw [he] at h; exact Option.noConfusion h
    | some c =>
      rw [he] at h
      exact getLast?_stripUnderscores_ne he (Option.some.inj h)
  · rw [noDouble_iff_chain]
    apply chain_stripUnderscores
    rw [hM, List.chain'_map]
    exact (chain_collapseAux _ false).imp
      (fun a b hab h2 =>
        hab ⟨(pyLowerChar_usc_iff a).mp h2.1, (pyLowerChar_usc_iff b).mp h2.2⟩)

/-! ### Idempotence: `to_snake_case` fixes its own output -/

theorem dropWhile_eq_self_of_all {p : Char → Bool} {l : List Char}
    (h : ∀ c ∈ l, p c = false) : l.dropWhile p = l := by
  cases l with
  | nil => rfl
  | cons a t => simp [List.dropWhile, h a (List.mem_cons_self a t)]

theorem dropWhile_eq_self_of_head {p : Char → Bool} {l : List Char}
    (h : ∀ c, l.head? = some c → p c = false) : l.dropWhile p = l := by
  cases l with
  | nil => rfl
  | cons a t => simp [List.dropWhile, h a rfl]

theorem isLowerAlnum_isAlnumChar {c : Char} (h : isLowerAlnum c = true) :
    isAlnumChar c = true := by
  rw [isAlnumChar_iff]
  rcases (isLowerAlnum_iff c).mp h with h1 | h1 <;> omega

theorem token_toNat {c : Char} (h : (isLowerAlnum c || c = Char.ofNat 95) = true) :
    (97 ≤ c.toNat ∧ c.toNat ≤ 122) ∨ (48 ≤ c.toNat ∧ c.toNat ≤ 57) ∨ c.toNat = 95 := by
  rcases (Bool.or_eq_true _ _).mp h with h1 | h1
  · rcases (isLowerAlnum_iff c).mp h1 with h2 | h2
    · left; exact h2
    · right; left; exact h2
  · right; right
    exact (eq_ofNat_iff c 95 (by omega)).mp (by simpa using h1)

theorem token_not_space {c : Char} (h : (isLowerAlnum c || c = Char.ofNat 95) = true) :
    pyIsSpace c = false := by
  have ht := token_toNat h
  rw [Bool.eq_false_iff]
  intro hs
  simp only [pyIsSpace, Bool.or_eq_true, Bool.and_eq_true, decide_eq_true_eq] at hs
  omega

theorem token_not_punct {c : Char} (h : (isLowerAlnum c || c = Char.ofNat 95) = true) :
    punctChars.contains c = false := by
  have ht := token_toNat h
  rw [Bool.eq_false_iff]
  intro hp
  have hmem : c ∈ punctChars := by
    simpa [List.contains_iff_exists_mem_beq] using hp
  simp only [punctChars, List.mem_cons, List.not_mem_nil, or_false] at hmem
  rcases hmem with e | e | e | e | e | e | e | e | e | e <;>
    (rw [eq_ofNat_iff _ _ (by omega)] at e; omega)

theorem pyStrip_fix {l : List Char} (h : ∀ c ∈ l, pyIsSpace c = false) :
    pyStrip l = l := by
  unfold pyStrip
  rw [dropWhile_eq_self_of_all h,
    dropWhile_eq_self_of_all (fun c hc => h c (List.mem_reverse.mp hc)),
    List.reverse_reverse]

theorem removePunct_fix {l : List Char} (h : ∀ c ∈ l, punctChars.contains c = false) :
    removePunct l = l := by
  unfold removePunct
  apply List.filter_eq_self.mpr
  intro a ha
  show (!(punctChars.contains a)) = true
  rw [h a ha]
  rfl

theorem collapseAux_fix :
    ∀ (l : List Char), (∀ c ∈ l, (isLowerAlnum c || c = Char.ofNat 95) = true) →
      l.Chain' Rusc →
      (collapseAux false l = l ∧
        ((l.head? = some (Char.ofNat 95) → False) → collapseAux true l = l)) := by
  intro l
  induction l with
  | nil => exact fun _ _ => ⟨rfl, fun _ => rfl⟩
  | cons c t ih =>
    intro hall hchain
    have ihall : ∀ d ∈ t, (isLowerAlnum d || d = Char.ofNat 95) = true :=
      fun d hd => hall d (List.mem_cons_of_mem c hd)
    have iht := ih ihall hchain.tail
    rcases (Bool.or_eq_true _ _).mp (hall c (List.mem_cons_self c t)) with h1 | h1
    · have ha : isAlnumChar c = true := isLowerAlnum_isAlnumChar h1
      constructor
      · rw [collapseAux, if_pos ha, iht.1]
      · intro _
        rw [collapseAux, if_pos ha, iht.1]
    · have he : c = Char.ofNat 95 := by simpa using h1
      have ha : isAlnumChar c = false := by
        rw [he]
        decide
      constructor
      · rw [collapseAux, if_neg (by simp [ha])]
        simp only [Bool.false_eq_true, if_false, List.cons.injEq]
        refine ⟨he.symm, iht.2 ?_⟩
        intro hh
        have hrel := (List.chain'_cons'.mp hchain).1
        cases ht : t.head? with
        | none => rw [ht] at hh; exact Option.noConfusion hh
        | some d =>
          rw [ht] at hh
          have := hrel d (by rw [ht]; rfl)
          exact this ⟨he, Option.some.inj hh⟩
      · intro hcond
        exact absurd (by rw [List.head?_cons, he]) hcond

theorem map_pyLowerChar_fix {l : List Char}
    (h : ∀ c ∈ l, (isLowerAlnum c || c = Char.ofNat 95) = true) :
    l.map pyLowerChar = l := by
  induction l with
  | nil => rfl
  | cons a t ih =>
    rw [List.map_cons, pyLowerChar_fix (h a (List.mem_cons_self a t)),
      ih (fun c hc => h c (List.mem_cons_of_mem a hc))]

theorem stripUnderscores_fix {l : List Char}
    (h1 : l.head? = some (Char.ofNat 95) → False)
    (h2 : l.getLast? = some (Char.ofNat 95) → False) : stripUnderscores l = l := by
  have key : ∀ (m : List Char), (m.head? = some (Char.ofNat 95) → False) →
      m.dropWhile (fun c => c = Char.ofNat 95) = m := by
    intro m hm
    apply dropWhile_eq_self_of_head
    intro c hc
    rw [Bool.eq_false_iff]
    intro he
    have hcu : c = Char.ofNat 95 := by simpa using he
    exact hm (by rw [← hcu]; exact hc)
  unfold stripUnderscores
  rw [key l h1, key l.reverse (by rw [List.head?_reverse]; exact h2),
    List.reverse_reverse]

theorem to_snake_case_fix {t : List Char} (h : isHeaderToken t = true) :
    to_snake_case t = t := by
  simp only [isHeaderToken, Bool.and_eq_true] at h
  obtain ⟨⟨⟨h1, h2⟩, h3⟩, h4⟩ := h
  rw [List.all_eq_true] at h1
  rw [decide_eq_true_eq] at h2 h3
  rw [noDouble_iff_chain] at h4
  unfold to_snake_case
  rw [pyStrip_fix (fun c hc => token_not_space (h1 c hc)),
    removePunct_fix (fun c hc => token_not_punct (h1 c hc)),
    show collapse t = t from (collapseAux_fix t h1 h4).1,
    map_pyLowerChar_fix h1,
    stripUnderscores_fix (fun he => h2 he) (fun he => h3 he)]

/-- **C4.** Header normalization is idempotent: for every string `x`,
`to_snake_case (to_snake_case x) = to_snake_case x`. -/
theorem claim_C4_idempotent (x : List Char) :
    to_snake_case (to_snake_case x) = to_snake_case x :=
  to_snake_case_fix (isHeaderToken_to_snake_case x)

/-- **C8.** Header normalization is total (it is a Lean function defined on
every string) and its result always has the HeaderToken shape: only
lowercase ASCII alphanumerics and underscores, no leading or trailing
underscore, and no two consecutive underscores. -/
theorem claim_C8_header_token (x : List Char) :
    isHeaderToken (to_snake_case x) = true :=
  isHeaderToken_to_snake_case x

/-! ### CSV encode/decode

The fragment of Python's `csv` module the source uses: the default dialect
(comma delimiter, double-quote quoting, `QUOTE_MINIMAL` on the writer,
line terminator `"\r\n"`).  `csv.writer.writerow` quotes a field iff it
contains a delimiter, a quote or a line break, doubling embedded quotes,
and quotes a record consisting of exactly one empty field so that the row
is not an empty line.  `csv.reader` is the matching state machine. -/

def needsQuote (f : List Char) : Bool :=
  f.any (fun c => c = ',' || c = '"' || c = Char.ofNat 10 || c = Char.ofNat 13)

def escapeQuotes : List Char → List Char
  | [] => []
  | c :: cs => if c = '"' then '"' :: '"' :: escapeQuotes cs else c :: escapeQuotes cs

def writeField (f : List Char) : List Char :=
  if needsQuote f then '"' :: (escapeQuotes f ++ ['"']) else f

def writeFields : List (List Char) → List Char
  | [] => []
  | [f] => writeField f
  | f :: g :: rest => writeField f ++ ',' :: writeFields (g :: rest)

/-- One record as `csv.writer.writerow` serializes it, without the line
terminator. -/
def writeRecord (fields : List (List Char)) : List Char :=
  if fields = [[]] then ['"', '"'] else writeFields fields

/-- `csv.reader`: the quoted-field state, entered after an opening quote;
returns the field content and the input after the closing quote. -/
def parseQuoted : List Char → List Char × List Char
  | [] => ([], [])
  | c :: cs =>
    if c = '"' then
      match cs with
      | '"' :: cs2 =>
        let r := parseQuoted cs2
        ('"' :: r.1, r.2)
      | _ => ([], cs)
    else
      let r := parseQuoted cs
      (c :: r.1, r.2)

/-- `csv.reader`: an unquoted field runs to the next delimiter. -/
def parseUnquoted : List Char → List Char × List Char
  | [] => ([], [])
  | c :: cs =>
    if c = ',' then ([], c :: cs)
    else
      let r := parseUnquoted cs
      (c :: r.1, r.2)

def parseField (cs : List Char) : List Char × List Char :=
  match cs with
  | [] => ([], [])
  | c :: cs2 => if c = '"' then parseQuoted cs2 else parseUnquoted (c :: cs2)

/-- Fields of one record, separated by commas.  The fuel bounds the number
of fields; `parseRecord` supplies more fuel than any record can use. -/
def parseFieldsFuel : Nat → List Char → List (List Char)
  | 0, _ => []
  | fuel + 1, cs =>
    let r := parseField cs
    match r.2 with
    | ',' :: rest => r.1 :: parseFieldsFuel fuel rest
    | _ => [r.1]

/-- `csv.reader` on one record's text: a blank line is the empty record. -/
def parseRecord (cs : List Char) : List (List Char) :=
  if cs = [] then [] else parseFieldsFuel (cs.length + 1) cs

/-! ### Write/parse round trip: the writer changes no field value -/

theorem parseQuoted_qq (cs : List Char) :
    parseQuoted ('"' :: '"' :: cs) =
      ('"' :: (parseQuoted cs).1, (parseQuoted cs).2) := rfl

theorem parseQuoted_q_nil : parseQuoted ['"'] = ([], []) := rfl

theorem parseQuoted_q_cons {a : Char} (ha : ¬ a = '"') (cs : List Char) :
    parseQuoted ('"' :: a :: cs) = ([], a :: cs) := by
  rw [parseQuoted.eq_def]
  simp only [if_pos rfl]
  split
  · split
    · rename_i cs2 h
      injection h with h1 h2
      exact absurd h1 ha
    · rfl
  · rename_i h
    exact absurd trivial h

theorem parseQuoted_cons {c : Char} (hc : ¬ c = '"') (cs : List Char) :
    parseQuoted (c :: cs) = (c :: (parseQuoted cs).1, (parseQuoted cs).2) := by
  rw [parseQuoted.eq_def]
  simp [hc]

theorem parseUnquoted_cons {c : Char} (hc : ¬ c = ',') (cs : List Char) :
    parseUnquoted (c :: cs) = (c :: (parseUnquoted cs).1, (parseUnquoted cs).2) := by
  rw [parseUnquoted.eq_def]
  simp [hc]

/-- After the closing quote of an escaped field, parsing resumes exactly at
the closing quote, provided what follows does not begin with a quote. -/
theorem parseQuoted_escape :
    ∀ (f r : List Char), r.head? ≠ some '"' →
      parseQuoted (escapeQuotes f ++ '"' :: r) = (f, r) := by
  intro f
  induction f with
  | nil =>
    intro r hr
    rw [escapeQuotes, List.nil_append]
    cases r with
    | nil => exact parseQuoted_q_nil
    | cons a r2 =>
      have ha : ¬ a = '"' := fun h => hr (by rw [List.head?_cons, h])
      exact parseQuoted_q_cons ha r2
  | cons a f' ih =>
    intro r hr
    by_cases ha : a = '"'
    · subst ha
      rw [escapeQuotes, if_pos rfl, List.cons_append, List.cons_append,
        parseQuoted_qq, ih r hr]
    · rw [escapeQuotes, if_neg ha, List.cons_append, parseQuoted_cons ha,
        ih r hr]

theorem parseUnquoted_append :
    ∀ (f r : List Char), (∀ c ∈ f, ¬ c = ',') →
      (r = [] ∨ r.head? = some ',') →
      parseUnquoted (f ++ r) = (f, r) := by
  intro f
  induction f with
  | nil =>
    intro r _ hr
    rw [List.nil_append]
    rcases hr with rfl | hr
    · rfl
    · cases r with
      | nil => rfl
      | cons a r2 =>
        have : a = ',' := Option.some.inj (by rw [← List.head?_cons]; exact hr)
        rw [this]
        rfl
  | cons a f' ih =>
    intro r hf hr
    have ha : ¬ a = ',' := hf a (List.mem_cons_self a f')
    rw [List.cons_append, parseUnquoted_cons ha,
      ih r (fun c hc => hf c (List.mem_cons_of_mem a hc)) hr]

theorem parseField_writeField (f r : List Char)
    (hr : r = [] ∨ r.head? = some ',') :
    parseField (writeField f ++ r) = (f, r) := by
  have hrq : r.head? ≠ some '"' := by
    rcases hr with rfl | hr
    · simp
    · rw [hr]
      intro h
      have h2 : (',' : Char) = '"' := Option.some.inj h
      exact absurd h2 (by decide)
  unfold writeField
  by_cases hq : needsQuote f = true
  · rw [if_pos hq, List.cons_append, List.append_assoc, List.singleton_append]
    rw [show parseField ('"' :: (escapeQuotes f ++ '"' :: r)) =
        parseQuoted (escapeQuotes f ++ '"' :: r) from rfl]
    exact parseQuoted_escape f r hrq
  · rw [if_neg hq]
    have hq2 : needsQuote f = false := Bool.eq_false_iff.mpr hq
    have hf : ∀ c ∈ f, ¬(c = ',' ∨ c = '"' ∨ c = Char.ofNat 10 ∨ c = Char.ofNat 13) := by
      intro c hc
      intro hbad
      have hany : needsQuote f = true := by
        unfold needsQuote
        rw [List.any_eq_true]
        refine ⟨c, hc, ?_⟩
        simp only [Bool.or_eq_true, decide_eq_true_eq]
        tauto
      rw [hany] at hq2
      exact Bool.noConfusion hq2
    cases f with
    | nil =>
      rw [List.nil_append]
      rcases hr with rfl | hr
      · rfl
      · cases r with
        | nil => rfl
        | cons a r2 =>
          have ha : a = ',' := Option.some.inj hr
          rw [ha]
          rfl
    | cons a f2 =>
      have ha : ¬ a = '"' := fun h => (hf a (List.mem_cons_self a f2)) (Or.inr (Or.inl h))
      rw [List.cons_append, parseField, if_neg ha, ← List.cons_append]
      exact parseUnquoted_append (a :: f2) r
        (fun c hc => fun h => (hf c hc) (Or.inl h)) hr

theorem parseFieldsFuel_writeFields :
    ∀ (fields : List (List Char)) (fuel : Nat), fields ≠ [] →
      fields.length ≤ fuel →
      parseFieldsFuel fuel (writeFields fields) = fields := by
  intro fields
  induction fields with
  | nil => intro fuel h _; exact absurd rfl h
  | cons f rest ih =>
    intro fuel _ hlen
    cases fuel with
    | zero => simp at hlen
    | succ k =>
      cases rest with
      | nil =>
        have hp : parseField (writeFields [f]) = (f, []) := by
          rw [show writeFields [f] = writeField f ++ [] from by rw [List.append_nil]; rfl]
          exact parseField_writeField f [] (Or.inl rfl)
        rw [parseFieldsFuel]
        simp only [hp]
      | cons g rest2 =>
        have hp : parseField (writeFields (f :: g :: rest2)) =
            (f, ',' :: writeFields (g :: rest2)) := by
          rw [show writeFields (f :: g :: rest2) =
              writeField f ++ ',' :: writeFields (g :: rest2) from rfl]
          exact parseField_writeField f _ (Or.inr rfl)
        rw [parseFieldsFuel]
        simp only [hp]
        rw [ih k (by intro h; exact List.noConfusion h)
          (by simpa using Nat.le_of_succ_le_succ hlen)]

theorem writeFields_ne_nil :
    ∀ (fields : List (List Char)), fields ≠ [] → fields ≠ [[]] →
      writeFields fields ≠ [] := by
  intro fields h0 h1
  cases fields with
  | nil => exact absurd rfl h0
  | cons f rest =>
    cases rest with
    | nil =>
      have hf : f ≠ [] := by
        intro he
        exact h1 (by rw [he])
      rw [show writeFields [f] = writeField f from rfl]
      unfold writeField
      by_cases hq : needsQuote f = true
      · rw [if_pos hq]
        intro h
        exact List.noConfusion h
      · rw [if_neg hq]
        exact hf
    | cons g rest2 =>
      rw [show writeFields (f :: g :: rest2) =
          writeField f ++ ',' :: writeFields (g :: rest2) from rfl]
      intro h
      rcases List.append_eq_nil.mp h with ⟨_, h2⟩
      exact List.noConfusion h2

theorem length_le_writeFields :
    ∀ (fields : List (List Char)), fields ≠ [] →
      fields.length ≤ (writeFields fields).length + 1 := by
  intro fields
  induction fields with
  | nil => intro h; exact absurd rfl h
  | cons f rest ih =>
    intro _
    cases rest with
    | nil => simp
    | cons g rest2 =>
      have h2 := ih (by intro h; exact List.noConfusion h)
      rw [show writeFields (f :: g :: rest2) =
          writeField f ++ ',' :: writeFields (g :: rest2) from rfl]
      simp only [List.length_cons, List.length_append] at h2 ⊢
      omega

/-- The round trip: parsing a record the writer produced recovers exactly
the written field values — nothing changed, added or dropped. -/
theorem parseRecord_writeRecord (fields : List (List Char)) :
    parseRecord (writeRecord fields) = fields := by
  by_cases h1 : fields = [[]]
  · subst h1
    rfl
  · rw [writeRecord, if_neg h1]
    cases hf : fields with
    | nil => rfl
    | cons f rest =>
      rw [← hf]
      have h0 : fields ≠ [] := by rw [hf]; intro h; exact List.noConfusion h
      have hne := writeFields_ne_nil fields h0 h1
      rw [parseRecord, if_neg hne]
      exact parseFieldsFuel_writeFields fields _ h0
        (by have := length_le_writeFields fields h0; omega)

/-! ### Record splitting over the whole text -/

/-- `csv.reader` record boundaries: a record ends at a line break outside
quotes; a quote character toggles the in-quotes state (an escaped `""`
toggles twice, returning to the in-quotes state); a trailing line break
produces no extra record. -/
def splitRecordsAux : Bool → List Char → List Char → List (List Char)
  | _, cur, [] => if cur = [] then [] else [cur.reverse]
  | false, cur, '\r' :: '\n' :: cs => cur.reverse :: splitRecordsAux false [] cs
  | false, cur, '\r' :: cs => cur.reverse :: splitRecordsAux false [] cs
  | false, cur, '\n' :: cs => cur.reverse :: splitRecordsAux false [] cs
  | inQ, cur, '"' :: cs => splitRecordsAux (!inQ) ('"' :: cur) cs
  | inQ, cur, c :: cs => splitRecordsAux inQ (c :: cur) cs

def splitRecords (text : List Char) : List (List Char) :=
  splitRecordsAux false [] text

/-- `list(csv.reader(io.StringIO(text)))`. -/
def parseCsv (text : List Char) : List (List (List Char)) :=
  (splitRecords text).map parseRecord

/-- The csv writer's line terminator `"\r\n"`. -/
def crlf : List Char := ['\r', '\n']

/-- `csv.writer`: one terminated line per record. -/
def writeCsv : List (List (List Char)) → List Char
  | [] => []
  | r :: rest => (writeRecord r ++ crlf) ++ writeCsv rest

/-- `process_file` after the download and UTF-8 decode: parse all rows,
replace the header row by its normalized tokens, keep the data rows, and
serialize the output file.  `none` models the uncaught `IndexError` of
`rows[0]` on input with no rows. -/
def process_file (csv_text : List Char) : Option (List Char) :=
  match parseCsv csv_text with
  | [] => none
  | header :: data_rows => some (writeCsv ((header.map to_snake_case) :: data_rows))

/-! ### The splitter undoes the writer -/

theorem splitRecordsAux_other_true {c : Char} (hc : ¬ c = '"')
    (cur cs : List Char) :
    splitRecordsAux true cur (c :: cs) = splitRecordsAux true (c :: cur) cs := by
  rw [splitRecordsAux.eq_def]
  split <;> simp_all

theorem splitRecordsAux_other_false {c : Char} (hc : ¬ c = '"')
    (h13 : ¬ c = '\r') (h10 : ¬ c = '\n') (cur cs : List Char) :
    splitRecordsAux false cur (c :: cs) = splitRecordsAux false (c :: cur) cs := by
  rw [splitRecordsAux.eq_def]
  split <;> simp_all

theorem scan_true_escape :
    ∀ (f cur t : List Char),
      splitRecordsAux true cur (escapeQuotes f ++ t) =
        splitRecordsAux true ((escapeQuotes f).reverse ++ cur) t := by
  intro f
  induction f with
  | nil => intro cur t; simp [escapeQuotes]
  | cons c f' ih =>
    intro cur t
    by_cases hc : c = '"'
    · subst hc
      rw [escapeQuotes, if_pos rfl, List.cons_append, List.cons_append]
      rw [show splitRecordsAux true cur ('"' :: ('"' :: (escapeQuotes f' ++ t))) =
          splitRecordsAux false ('"' :: cur) ('"' :: (escapeQuotes f' ++ t)) from rfl]
      rw [show splitRecordsAux false ('"' :: cur) ('"' :: (escapeQuotes f' ++ t)) =
          splitRecordsAux true ('"' :: '"' :: cur) (escapeQuotes f' ++ t) from rfl]
      rw [ih]
      simp
    · rw [escapeQuotes, if_neg hc, List.cons_append,
        splitRecordsAux_other_true hc, ih]
      simp

theorem scan_false_plain :
    ∀ (f : List Char),
      (∀ c ∈ f, ¬ c = '"' ∧ ¬ c = '\r' ∧ ¬ c = '\n') →
      ∀ (cur t : List Char),
        splitRecordsAux false cur (f ++ t) =
          splitRecordsAux false (f.reverse ++ cur) t := by
  intro f
  induction f with
  | nil => intro _ cur t; simp
  | cons c f' ih =>
    intro h cur t
    have hc := h c (List.mem_cons_self c f')
    rw [List.cons_append,
      splitRecordsAux_other_false hc.1 hc.2.1 hc.2.2,
      ih (fun d hd => h d (List.mem_cons_of_mem c hd))]
    simp

theorem scan_false_field :
    ∀ (f cur t : List Char),
      splitRecordsAux false cur (writeField f ++ t) =
        splitRecordsAux false ((writeField f).reverse ++ cur) t := by
  intro f cur t
  unfold writeField
  by_cases hq : needsQuote f = true
  · rw [if_pos hq]
    rw [List.cons_append, List.append_assoc, List.singleton_append]
    rw [show splitRecordsAux false cur ('"' :: (escapeQuotes f ++ '"' :: t)) =
        splitRecordsAux true ('"' :: cur) (escapeQuotes f ++ '"' :: t) from rfl]
    rw [scan_true_escape]
    rw [show splitRecordsAux true ((escapeQuotes f).reverse ++ '"' :: cur) ('"' :: t) =
        splitRecordsAux false ('"' :: ((escapeQuotes f).reverse ++ '"' :: cur)) t from rfl]
    simp
  · rw [if_neg hq]
    have hq2 : needsQuote f = false := Bool.eq_false_iff.mpr hq
    apply scan_false_plain
    intro c hc
    have : ¬(c = ',' ∨ c = '"' ∨ c = Char.ofNat 10 ∨ c = Char.ofNat 13) := by
      intro hbad
      have hany : needsQuote f = true := by
        unfold needsQuote
        rw [List.any_eq_true]
        refine ⟨c, hc, ?_⟩
        simp only [Bool.or_eq_true, decide_eq_true_eq]
        tauto
      rw [hany] at hq2
      exact Bool.noConfusion hq2
    have e13 : ('\r' : Char) = Char.ofNat 13 := by decide
    have e10 : ('\n' : Char) = Char.ofNat 10 := by decide
    exact ⟨fun h => this (Or.inr (Or.inl h)),
      fun h => this (Or.inr (Or.inr (Or.inr (h.trans e13)))),
      fun h => this (Or.inr (Or.inr (Or.inl (h.trans e10))))⟩

theorem scan_false_writeFields :
    ∀ (fields : List (List Char)) (cur t : List Char),
      splitRecordsAux false cur (writeFields fields ++ t) =
        splitRecordsAux false ((writeFields fields).reverse ++ cur) t := by
  intro fields
  induction fields with
  | nil => intro cur t; simp [writeFields]
  | cons f rest ih =>
    intro cur t
    cases rest with
    | nil =>
      rw [show writeFields [f] = writeField f from rfl]
      exact scan_false_field f cur t
    | cons g rest2 =>
      rw [show writeFields (f :: g :: rest2) =
          writeField f ++ ',' :: writeFields (g :: rest2) from rfl]
      rw [List.append_assoc, scan_false_field, List.cons_append,
        splitRecordsAux_other_false (by decide) (by decide) (by decide),
        ih]
      simp

theorem scan_false_writeRecord :
    ∀ (fields : List (List Char)) (cur t : List Char),
      splitRecordsAux false cur (writeRecord fields ++ t) =
        splitRecordsAux false ((writeRecord fields).reverse ++ cur) t := by
  intro fields cur t
  unfold writeRecord
  by_cases h : fields = [[]]
  · rw [if_pos h]
    rfl
  · rw [if_neg h]
    exact scan_false_writeFields fields cur t

theorem splitRecordsAux_crlf (cur cs : List Char) :
    splitRecordsAux false cur ('\r' :: '\n' :: cs) =
      cur.reverse :: splitRecordsAux false [] cs := rfl

theorem splitRecords_writeCsv :
    ∀ (rows : List (List (List Char))),
      splitRecords (writeCsv rows) = rows.map writeRecord := by
  intro rows
  unfold splitRecords
  induction rows with
  | nil => rfl
  | cons r rest ih =>
    rw [show writeCsv (r :: rest) = writeRecord r ++ (crlf ++ writeCsv rest) from
      List.append_assoc (writeRecord r) crlf (writeCsv rest)]
    rw [scan_false_writeRecord]
    rw [show crlf ++ writeCsv rest = '\r' :: '\n' :: writeCsv rest from rfl]
    rw [splitRecordsAux_crlf, ih]
    simp

theorem parseCsv_writeCsv (rows : List (List (List Char))) :
    parseCsv (writeCsv rows) = rows := by
  unfold parseCsv
  rw [splitRecords_writeCsv, List.map_map]
  have : (parseRecord ∘ writeRecord) = id := by
    funext fields
    exact parseRecord_writeRecord fields
  rw [this, List.map_id]


/-- **C3 (counterexample).** The claim that every output data row is
byte-identical to the source row fails: for the source text
`a,b\n"x",y` the worker writes the data row as `x,y` (minimal quoting),
which differs byte-wise from the source row `"x",y`, although it carries
the same field values. -/
theorem claim_C3_counterexample :
    process_file ("a,b\n\"x\",y".toList) = some ("a,b\r\nx,y\r\n".toList) ∧
    splitRecords ("a,b\n\"x\",y".toList) = ["a,b".toList, "\"x\",y".toList] ∧
    splitRecords ("a,b\r\nx,y\r\n".toList) = ["a,b".toList, "x,y".toList] ∧
    ¬ ("x,y".toList = "\"x\",y".toList) ∧
    parseRecord ("x,y".toList) = parseRecord ("\"x\",y".toList) := by
  refine ⟨?_, ?_, ?_, ?_, ?_⟩ <;> decide

/-- **C3 (amended).** For every successfully processed file, the output is
the normalized header row followed by one row per source data row, and
each output row carries exactly the source row's field values — no value
changed, added or dropped — re-serialized with the writer's minimal
quoting (so the bytes may differ from the source where the source used
optional quoting). -/
theorem claim_C3_amended (text : List Char) (header : List (List Char))
    (data_rows : List (List (List Char))) (out : List Char)
    (hparse : parseCsv text = header :: data_rows)
    (hrun : process_file text = some out) :
    parseCsv out = (header.map to_snake_case) :: data_rows := by
  unfold process_file at hrun
  rw [hparse] at hrun
  rw [(Option.some.inj hrun).symm, parseCsv_writeCsv]

theorem claim_C3_witness :
    parseCsv ("a,b\r\nx,y\r\n".toList) =
      (["a".toList, "b".toList].map to_snake_case) :: [["x".toList, "y".toList]] :=
  claim_C3_amended ("a,b\n\"x\",y".toList) ["a".toList, "b".toList]
    [["x".toList, "y".toList]] ("a,b\r\nx,y\r\n".toList) (by decide) (by decide)

/-- **C10.** Normalizing a column name with no ASCII alphanumeric
characters, such as `"???"`, yields the empty token, and the written
output header row then contains an empty column token (here `,x` for the
source header `???,x`). -/
theorem claim_C10_empty_token :
    to_snake_case ("???".toList) = [] ∧
    process_file ("???,x\r\n1,2".toList) = some (",x\r\n1,2\r\n".toList) := by
  constructor <;> decide

/-! ### Python datetimes

The fragment of `datetime` the source relies on: `fromisoformat` (CPython
3.11 style: `YYYY-MM-DD`, an arbitrary single separator character, then
`HH[:MM[:SS[.ffffff]]]` with an optional `Z`/`±HH[:MM[:SS]]` offset; the
basic formats without dashes are not modelled), field validation, and
comparison — naive datetimes compare field-lexicographically, aware ones
on the UTC timeline, and comparing a naive with an aware datetime raises
`TypeError` (modelled as `Except.error`). -/

structure PyDateTime where
  year : Nat
  month : Nat
  day : Nat
  hour : Nat
  minute : Nat
  second : Nat
  usec : Nat
  /-- UTC offset in seconds; `none` is a naive datetime. -/
  offset : Option Int
deriving DecidableEq

def isDigitChar (c : Char) : Bool := 48 ≤ c.toNat && c.toNat ≤ 57

def digitVal (c : Char) : Nat := c.toNat - 48

def readDigitsAux : Nat → Nat → List Char → Option (Nat × List Char)
  | 0, acc, cs => some (acc, cs)
  | n + 1, acc, cs =>
    match cs with
    | [] => none
    | c :: cs2 =>
      if isDigitChar c then readDigitsAux n (acc * 10 + digitVal c) cs2 else none

/-- Exactly `n` ASCII digits. -/
def readDigits (n : Nat) (cs : List Char) : Option (Nat × List Char) :=
  readDigitsAux n 0 cs

def isLeap (y : Nat) : Bool :=
  if y % 400 = 0 then true else if y % 100 = 0 then false else decide (y % 4 = 0)

def daysInMonth (y m : Nat) : Nat :=
  if m = 2 then (if isLeap y then 29 else 28)
  else if m = 4 || m = 6 || m = 9 || m = 11 then 30
  else 31

/-- Fractional seconds: all digits are consumed, the first six are
significant (CPython truncates the rest). -/
def fracToUsec (ds : List Char) : Nat :=
  let six := ds.take 6
  (six.foldl (fun acc c => acc * 10 + digitVal c) 0) * 10 ^ (6 - six.length)

def readTzTail : List Char → Option (Nat × Nat)
  | [] => some (0, 0)
  | ':' :: r =>
    (match readDigits 2 r with
    | some (mm, []) => some (mm, 0)
    | some (mm, ':' :: r3) =>
      (match readDigits 2 r3 with
      | some (ss, []) => some (mm, ss)
      | _ => none)
    | _ => none)
  | r =>
    match readDigits 2 r with
    | some (mm, []) => some (mm, 0)
    | some (mm, r2) =>
      (match readDigits 2 r2 with
      | some (ss, []) => some (mm, ss)
      | _ => none)
    | none => none

def parseOffMag (cs : List Char) : Option Int :=
  match readDigits 2 cs with
  | none => none
  | some (hh, r) =>
    match readTzTail r with
    | none => none
    | some (mm, ss) =>
      let tot : Nat := hh * 3600 + mm * 60 + ss
      if mm ≤ 59 && ss ≤ 59 && tot < 86400 then some (tot : Int) else none

/-- `some none` = no offset written (naive); `some (some o)` = aware with
offset `o` seconds; `none` = malformed. -/
def parseOffset : List Char → Option (Option Int)
  | [] => some none
  | 'Z' :: [] => some (some 0)
  | 'z' :: [] => some (some 0)
  | '+' :: r => (parseOffMag r).map (fun o => some o)
  | '-' :: r => (parseOffMag r).map (fun o => some (-o))
  | _ => none

def parseFracOffset (h mi sec : Nat) (cs : List Char) :
    Option (Nat × Nat × Nat × Nat × Option Int) :=
  let ds := cs.takeWhile isDigitChar
  let r := cs.dropWhile isDigitChar
  if ds = [] then none
  else (parseOffset r).map (fun off => (h, mi, sec, fracToUsec ds, off))

def parseTimePart (cs : List Char) : Option (Nat × Nat × Nat × Nat × Option Int) :=
  match readDigits 2 cs with
  | none => none
  | some (h, r1) =>
    if h ≤ 23 then
      match r1 with
      | ':' :: r2 =>
        (match readDigits 2 r2 with
        | none => none
        | some (mi, r3) =>
          if mi ≤ 59 then
            match r3 with
            | ':' :: r4 =>
              (match readDigits 2 r4 with
              | none => none
              | some (sec, r5) =>
                if sec ≤ 59 then
                  match r5 with
                  | '.' :: r6 => parseFracOffset h mi sec r6
                  | ',' :: r6 => parseFracOffset h mi sec r6
                  | r6 => (parseOffset r6).map (fun off => (h, mi, sec, 0, off))
                else none)
            | r4 => (parseOffset r4).map (fun off => (h, mi, 0, 0, off))
          else none)
      | r2 => (parseOffset r2).map (fun off => (h, 0, 0, 0, off))
    else none

/-- `datetime.fromisoformat`. -/
def pyFromIso (s : List Char) : Option PyDateTime :=
  match readDigits 4 s with
  | none => none
  | some (y, r1) =>
    match r1 with
    | '-' :: r2 =>
      (match readDigits 2 r2 with
      | none => none
      | some (mo, r3) =>
        match r3 with
        | '-' :: r4 =>
          (match readDigits 2 r4 with
          | none => none
          | some (d, r5) =>
            if 1 ≤ y && 1 ≤ mo && mo ≤ 12 && 1 ≤ d && d ≤ daysInMonth y mo then
              match r5 with
              | [] => some ⟨y, mo, d, 0, 0, 0, 0, none⟩
              | _ :: r6 =>
                (parseTimePart r6).map
                  (fun (h, mi, sec, us, off) => ⟨y, mo, d, h, mi, sec, us, off⟩)
            else none)
        | _ => none)
    | _ => none

/-- Days since 1970-01-01, proleptic Gregorian (all quantities here are
non-negative because `fromisoformat` only produces years ≥ 1). -/
def daysFromCivil (y m d : Nat) : Int :=
  let y2 : Int := if m ≤ 2 then (y : Int) - 1 else (y : Int)
  let era : Int := y2 / 400
  let yoe : Int := y2 - era * 400
  let mp : Int := ((m : Int) + 9) % 12
  let doy : Int := (153 * mp + 2) / 5 + (d : Int) - 1
  let doe : Int := yoe * 365 + yoe / 4 - yoe / 100 + doy
  era * 146097 + doe - 719468

/-- Microseconds on the UTC timeline, offset subtracted. -/
def utcUs (t : PyDateTime) (off : Int) : Int :=
  (daysFromCivil t.year t.month t.day * 86400
    + (t.hour : Int) * 3600 + (t.minute : Int) * 60 + (t.second : Int) - off) * 1000000
    + (t.usec : Int)

def lexKey (t : PyDateTime) : List Nat :=
  [t.year, t.month, t.day, t.hour, t.minute, t.second, t.usec]

def natListLt : List Nat → List Nat → Bool
  | [], [] => false
  | [], _ :: _ => true
  | _ :: _, [] => false
  | a :: l1, b :: l2 => if a < b then true else if b < a then false else natListLt l1 l2

/-- Python `a > b` on datetimes. -/
def pyGt (a b : PyDateTime) : Except Unit Bool :=
  match a.offset, b.offset with
  | none, none => .ok (natListLt (lexKey b) (lexKey a))
  | some oa, some ob => .ok (decide (utcUs b ob < utcUs a oa))
  | _, _ => .error ()

/-! ### Dataset descriptors and the two filters -/

/-- The `theme` field of a raw JSON descriptor, as the membership test
`"Hospitals" in d["theme"]` sees it. -/
inductive ThemeVal where
  | missing : ThemeVal
  | notIterable : ThemeVal
  | str : List Char → ThemeVal
  | list : List (List Char) → ThemeVal
deriving DecidableEq

structure Dataset where
  theme : ThemeVal
  /-- `modified`: `none` models a missing key or a non-string value (both
  raise inside the `try` and are skipped). -/
  modified : Option (List Char)
  /-- `distribution`: `none` a missing key or non-list value; each entry's
  `downloadURL`, with `none` when that key is absent. -/
  distribution : Option (List (Option (List Char)))
deriving DecidableEq

def hospitalsTheme : List Char := "Hospitals".toList

/-- Python `needle in hay` on strings: substring containment. -/
def strContains (hay needle : List Char) : Bool :=
  (List.range (hay.length + 1)).any (fun i => needle.isPrefixOf (hay.drop i))

/-- `"Hospitals" in d["theme"]` with the `KeyError`/`TypeError` handler of
the source: a missing or non-iterable theme is skipped; a string theme is
a substring test; a list theme is a membership test. -/
def themeHasHospitals : ThemeVal → Bool
  | .missing => false
  | .notIterable => false
  | .str s => strContains s hospitalsTheme
  | .list l => l.contains hospitalsTheme

/-- `filter_hospital_entries` from the source. -/
def filter_hospital_entries (dataset_list : List Dataset) : List Dataset :=
  dataset_list.filter (fun d => themeHasHospitals d.theme)

/-- Modelled from the spec (ThemeFilter, for comparison with the source):
retain iff the theme field is a collection containing the target as an
element — never string/substring matching. -/
def specThemeKeep : ThemeVal → Bool
  | .list l => l.contains hospitalsTheme
  | _ => false

/-- `filter_modified_entries` from the source.  The `try` covers only
`datetime.fromisoformat`; the comparison `mod > last_run_date` sits
outside it, so a `TypeError` there propagates. -/
def filter_modified_entries : List Dataset → PyDateTime → Except Unit (List Dataset)
  | [], _ => .ok []
  | d :: rest, cutoff =>
    match d.modified with
    | none => filter_modified_entries rest cutoff
    | some s =>
      match pyFromIso s with
      | none => filter_modified_entries rest cutoff
      | some m =>
        match pyGt m cutoff with
        | .error e => .error e
        | .ok b =>
          match filter_modified_entries rest cutoff with
          | .error e => .error e
          | .ok l => .ok (if b then d :: l else l)

/-- The per-descriptor keep decision of the recency filter, when the
comparison does not raise. -/
def recencyKeep (cutoff : PyDateTime) (d : Dataset) : Bool :=
  match d.modified with
  | none => false
  | some s =>
    match pyFromIso s with
    | none => false
    | some m =>
      match pyGt m cutoff with
      | .ok b => b
      | .error _ => false

/-- Whether two datetimes are comparable (both naive or both aware). -/
def sameKind (a b : PyDateTime) : Bool := a.offset.isSome == b.offset.isSome

/-! ### C6: the theme filter -/

theorem themeHasHospitals_iff (t : ThemeVal) :
    themeHasHospitals t = true ↔
      ((∃ l, t = ThemeVal.list l ∧ hospitalsTheme ∈ l) ∨
       (∃ s, t = ThemeVal.str s ∧ strContains s hospitalsTheme = true)) := by
  cases t with
  | missing => simp [themeHasHospitals]
  | notIterable => simp [themeHasHospitals]
  | str s => simp [themeHasHospitals]
  | list l => simp [themeHasHospitals, List.elem_iff]

/-- **C6 (counterexample).** The claim that a descriptor is retained only
when its theme is a collection with the target as an element fails: a
descriptor whose `theme` is the single string `"Hospitals of America"`
(not a collection) is retained, because Python's `in` on a string is a
substring test. -/
theorem claim_C6_counterexample :
    filter_hospital_entries
        [⟨ThemeVal.str ("Hospitals of America".toList), none, none⟩] =
      [⟨ThemeVal.str ("Hospitals of America".toList), none, none⟩] ∧
    specThemeKeep (ThemeVal.str ("Hospitals of America".toList)) = false := by
  constructor <;> decide

/-- **C6 (amended).** The theme filter retains a descriptor iff its theme
field contains `"Hospitals"` — as an element when the field is a
collection, or as a substring when the field is a single string; a
descriptor whose theme is absent or not iterable is silently dropped
without error. -/
theorem claim_C6_amended (d : Dataset) (ds : List Dataset) :
    d ∈ filter_hospital_entries ds ↔
      (d ∈ ds ∧
        ((∃ l, d.theme = ThemeVal.list l ∧ hospitalsTheme ∈ l) ∨
         (∃ s, d.theme = ThemeVal.str s ∧ strContains s hospitalsTheme = true))) := by
  rw [filter_hospital_entries, List.mem_filter, themeHasHospitals_iff]

/-! ### C5: the recency filter -/

theorem natListLt_irrefl : ∀ (l : List Nat), natListLt l l = false := by
  intro l
  induction l with
  | nil => rfl
  | cons a t ih =>
    rw [natListLt, if_neg (lt_irrefl a), if_neg (lt_irrefl a)]
    exact ih

theorem pyGt_self (m : PyDateTime) : pyGt m m = Except.ok false := by
  unfold pyGt
  cases ho : m.offset with
  | none => simp [natListLt_irrefl]
  | some o => simp

instance exceptDecEq {ε α : Type} [DecidableEq ε] [DecidableEq α] :
    DecidableEq (Except ε α) := fun a b =>
  match a, b with
  | .error e1, .error e2 =>
    if h : e1 = e2 then isTrue (by rw [h])
    else isFalse (by intro hh; injection hh with h2; exact h h2)
  | .error _, .ok _ => isFalse (by intro hh; exact Except.noConfusion hh)
  | .ok _, .error _ => isFalse (by intro hh; exact Except.noConfusion hh)
  | .ok v1, .ok v2 =>
    if h : v1 = v2 then isTrue (by rw [h])
    else isFalse (by intro hh; injection hh with h2; exact h h2)

/-- **C5 (counterexample).** The recency filter can fail outright instead
of retaining or dropping: a descriptor whose `modified` parses to an
offset-aware timestamp makes the comparison with the naive cutoff raise
`TypeError`, which is outside the `try` block, so the filter aborts. -/
theorem claim_C5_counterexample :
    filter_modified_entries
        [⟨ThemeVal.missing, some ("1999-01-02T00:00:00+00:00".toList), none⟩]
        ⟨1900, 1, 1, 0, 0, 0, 0, none⟩ = Except.error () ∧
    (pyFromIso ("1999-01-02T00:00:00+00:00".toList)).isSome = true := by
  constructor <;> decide

/-- **C5 (amended).** Provided every descriptor whose `modified` parses
yields a timestamp of the same naive/aware kind as the cutoff, the filter
returns exactly the descriptors whose parsed `modified` compares strictly
greater than the cutoff; descriptors with missing or unparsable
`modified` are silently dropped, and ties are excluded (`pyGt m m` is
`false`).  When a parsed timestamp's kind differs from the cutoff's, the
comparison raises and the whole filter aborts (see the counterexample). -/
theorem claim_C5_amended (ds : List Dataset) (cutoff : PyDateTime)
    (h : ∀ d ∈ ds, ∀ s, d.modified = some s → ∀ m, pyFromIso s = some m →
      sameKind m cutoff = true) :
    filter_modified_entries ds cutoff = Except.ok (ds.filter (recencyKeep cutoff)) ∧
    (∀ m : PyDateTime, pyGt m m = Except.ok false) := by
  refine ⟨?_, pyGt_self⟩
  induction ds with
  | nil => rfl
  | cons d rest ih =>
    have hrest := ih (fun d2 hd2 s hs m hm =>
      h d2 (List.mem_cons_of_mem d hd2) s hs m hm)
    cases hm : d.modified with
    | none =>
      rw [List.filter_cons_of_neg (by simp [recencyKeep, hm])]
      simp only [filter_modified_entries, hm]
      exact hrest
    | some s =>
      cases hp : pyFromIso s with
      | none =>
        rw [List.filter_cons_of_neg (by simp [recencyKeep, hm, hp])]
        simp only [filter_modified_entries, hm, hp]
        exact hrest
      | some m =>
        have hsk := h d (List.mem_cons_self d rest) s hm m hp
        obtain ⟨b, hb⟩ : ∃ b, pyGt m cutoff = Except.ok b := by
          unfold pyGt
          unfold sameKind at hsk
          cases ho : m.offset <;> cases hc : cutoff.offset
          · exact ⟨_, rfl⟩
          · rw [ho, hc] at hsk
            simp at hsk
          · rw [ho, hc] at hsk
            simp at hsk
          · exact ⟨_, rfl⟩
        have hkeep : recencyKeep cutoff d = b := by
          simp only [recencyKeep, hm, hp, hb]
        cases b with
        | true =>
          rw [List.filter_cons_of_pos (by rw [hkeep])]
          simp only [filter_modified_entries, hm, hp, hb, hrest]
          simp
        | false =>
          rw [List.filter_cons_of_neg (by rw [hkeep]; exact Bool.noConfusion)]
          simp only [filter_modified_entries, hm, hp, hb, hrest]
          simp

theorem claim_C5_witness :
    filter_modified_entries
        [⟨ThemeVal.missing, some ("2024-06-01T00:00:00.000001".toList), none⟩,
         ⟨ThemeVal.missing, some ("2024-06-01T00:00:00".toList), none⟩,
         ⟨ThemeVal.missing, some ("not-a-date".toList), none⟩,
         ⟨ThemeVal.missing, none, none⟩]
        ⟨2024, 6, 1, 0, 0, 0, 0, none⟩ =
      Except.ok
        ([⟨ThemeVal.missing, some ("2024-06-01T00:00:00.000001".toList), none⟩,
          ⟨ThemeVal.missing, some ("2024-06-01T00:00:00".toList), none⟩,
          ⟨ThemeVal.missing, some ("not-a-date".toList), none⟩,
          ⟨ThemeVal.missing, none, none⟩].filter
            (recencyKeep ⟨2024, 6, 1, 0, 0, 0, 0, none⟩)) ∧
    ([⟨ThemeVal.missing, some ("2024-06-01T00:00:00.000001".toList), none⟩,
      ⟨ThemeVal.missing, some ("2024-06-01T00:00:00".toList), none⟩,
      ⟨ThemeVal.missing, some ("not-a-date".toList), none⟩,
      ⟨ThemeVal.missing, none, none⟩].filter
        (recencyKeep ⟨2024, 6, 1, 0, 0, 0, 0, none⟩)) =
      [⟨ThemeVal.missing, some ("2024-06-01T00:00:00.000001".toList), none⟩] :=
  ⟨(claim_C5_amended _ ⟨2024, 6, 1, 0, 0, 0, 0, none⟩ (by decide)).1, by decide⟩

/-! ### The run ledger -/

/-- A calendar date, as `strftime("%Y-%m-%d")` stores it in `run_list.csv`. -/
structure PyDate where
  year : Nat
  month : Nat
  day : Nat
deriving DecidableEq

/-- Chronological order on stored dates (pandas parses the column into
timestamps, ordered lexicographically by year, month, day). -/
def dateLt (a b : PyDate) : Bool :=
  natListLt [a.year, a.month, a.day] [b.year, b.month, b.day]

structure RunRecord where
  run_date : PyDate
  processed_count : Nat
deriving DecidableEq

/-- `df["run_date"].max()` over the parsed records, with the sentinel for
an empty frame (`pd.isnull(max_date)`). -/
def maxRunDate : List RunRecord → PyDate
  | [] => ⟨1900, 1, 1⟩
  | r :: rest =>
    rest.foldl (fun acc r2 => if dateLt acc r2.run_date then r2.run_date else acc)
      r.run_date

/-- A stored date read back as the naive midnight timestamp pandas yields
(and `datetime(1900, 1, 1)` for the sentinel). -/
def dateToDt (d : PyDate) : PyDateTime :=
  ⟨d.year, d.month, d.day, 0, 0, 0, 0, none⟩

/-- `get_last_run_date`: a missing store is created with only the header;
then the maximum `run_date` is returned, or the sentinel 1900-01-01 when
there are no records.  Returns the (possibly created) store contents
together with the cutoff. -/
def get_last_run_date : Option (List RunRecord) → List RunRecord × PyDateTime
  | none => ([], dateToDt ⟨1900, 1, 1⟩)
  | some rs => (rs, dateToDt (maxRunDate rs))

/-- `update_run_metadata`: appends one row `(run_date, processed_count)`
to the store, altering nothing before it. -/
def update_run_metadata (rs : List RunRecord) (run_date : PyDate)
    (processed_count : Nat) : List RunRecord :=
  rs ++ [⟨run_date, processed_count⟩]

/-! ### Order lemmas for the ledger maximum -/

theorem natListLt_asymm :
    ∀ (x y : List Nat), natListLt x y = true → natListLt y x = false := by
  intro x
  induction x with
  | nil =>
    intro y h
    cases y with
    | nil => rfl
    | cons b t => rfl
  | cons a t ih =>
    intro y h
    cases y with
    | nil => exact Bool.noConfusion h
    | cons b u =>
      rw [natListLt] at h ⊢
      by_cases hab : a < b
      · rw [if_neg (by omega), if_pos (by omega)]
      · rw [if_neg hab] at h
        by_cases hba : b < a
        · rw [if_pos hba] at h
          exact Bool.noConfusion h
        · rw [if_neg hba] at h
          rw [if_neg (by omega), if_neg (by omega)]
          exact ih u h

theorem natListLt_false_trans :
    ∀ (x y z : List Nat), natListLt x y = false → natListLt y z = false →
      natListLt x z = false := by
  intro x
  induction x with
  | nil =>
    intro y z h1 h2
    cases y with
    | nil => exact h2
    | cons b u => exact Bool.noConfusion h1
  | cons a t ih =>
    intro y z h1 h2
    cases z with
    | nil => rfl
    | cons c v =>
      cases y with
      | nil => exact Bool.noConfusion h2
      | cons b u =>
        rw [natListLt] at h1 h2 ⊢
        by_cases hab : a < b
        · rw [if_pos hab] at h1
          exact Bool.noConfusion h1
        · rw [if_neg hab] at h1
          by_cases hbc : b < c
          · rw [if_pos hbc] at h2
            exact Bool.noConfusion h2
          · rw [if_neg hbc] at h2
            by_cases hac : a < c
            · exact absurd hac (by omega)
            · rw [if_neg hac]
              by_cases hca : c < a
              · rw [if_pos hca]
              · rw [if_neg hca]
                have hba : ¬ b < a := by omega
                have hcb : ¬ c < b := by omega
                rw [if_neg hba] at h1
                rw [if_neg hcb] at h2
                exact ih u v h1 h2

theorem dateLt_irrefl (d : PyDate) : dateLt d d = false :=
  natListLt_irrefl _

theorem foldl_max_mem :
    ∀ (l : List RunRecord) (a : PyDate),
      (l.foldl (fun acc r2 => if dateLt acc r2.run_date then r2.run_date else acc) a
          = a) ∨
      (l.foldl (fun acc r2 => if dateLt acc r2.run_date then r2.run_date else acc) a
          ∈ l.map (fun r => r.run_date)) := by
  intro l
  induction l with
  | nil => intro a; left; rfl
  | cons r rest ih =>
    intro a
    rw [List.foldl_cons]
    by_cases hs : dateLt a r.run_date
    · rw [if_pos hs]
      rcases ih r.run_date with h | h
      · right
        rw [List.map_cons, h]
        exact List.mem_cons_self _ _
      · right
        rw [List.map_cons]
        exact List.mem_cons_of_mem _ h
    · rw [if_neg hs]
      rcases ih a with h | h
      · left; exact h
      · right
        rw [List.map_cons]
        exact List.mem_cons_of_mem _ h

theorem foldl_max_ge_init :
    ∀ (l : List RunRecord) (a : PyDate),
      dateLt
        (l.foldl (fun acc r2 => if dateLt acc r2.run_date then r2.run_date else acc) a)
        a = false := by
  intro l
  induction l with
  | nil => intro a; exact dateLt_irrefl a
  | cons r rest ih =>
    intro a
    rw [List.foldl_cons]
    by_cases hs : dateLt a r.run_date
    · rw [if_pos hs]
      exact natListLt_false_trans _ _ _ (ih r.run_date) (natListLt_asymm _ _ hs)
    · rw [if_neg hs]
      exact ih a

theorem foldl_max_ub :
    ∀ (l : List RunRecord) (a : PyDate) (r : RunRecord), r ∈ l →
      dateLt
        (l.foldl (fun acc r2 => if dateLt acc r2.run_date then r2.run_date else acc) a)
        r.run_date = false := by
  intro l
  induction l with
  | nil => intro a r hr; exact absurd hr (List.not_mem_nil r)
  | cons r0 rest ih =>
    intro a r hr
    rw [List.foldl_cons]
    rcases List.mem_cons.mp hr with rfl | hr2
    · by_cases hs : dateLt a r.run_date
      · rw [if_pos hs]
        exact foldl_max_ge_init rest r.run_date
      · rw [if_neg hs]
        exact natListLt_false_trans _ _ _ (foldl_max_ge_init rest a)
          (Bool.eq_false_iff.mpr hs)
    · by_cases hs : dateLt a r0.run_date
      · rw [if_pos hs]
        exact ih r0.run_date r hr2
      · rw [if_neg hs]
        exact ih a r hr2

/-- **C7.** `readCutoff` on a nonexistent store creates it with only the
header and returns the 1900-01-01 sentinel; on an existing store it
returns the maximum run date of the records (a date of some record that
no record exceeds), or the sentinel when the store has zero records; and
after a single `append(d, c)` to an empty ledger, a subsequent read
returns `d`. -/
theorem claim_C7_ledger :
    (get_last_run_date none = ([], dateToDt ⟨1900, 1, 1⟩)) ∧
    ((get_last_run_date (some [])).2 = dateToDt ⟨1900, 1, 1⟩) ∧
    (∀ rs : List RunRecord, rs ≠ [] →
      ((get_last_run_date (some rs)).2 = dateToDt (maxRunDate rs) ∧
        maxRunDate rs ∈ rs.map (fun r => r.run_date) ∧
        ∀ r ∈ rs, dateLt (maxRunDate rs) r.run_date = false)) ∧
    (∀ (d : PyDate) (c : Nat),
      (get_last_run_date (some (update_run_metadata [] d c))).2 = dateToDt d) := by
  refine ⟨rfl, rfl, ?_, ?_⟩
  · intro rs hne
    refine ⟨rfl, ?_, ?_⟩
    · cases rs with
      | nil => exact absurd rfl hne
      | cons r rest =>
        rw [maxRunDate]
        rcases foldl_max_mem rest r.run_date with h | h
        · rw [h, List.map_cons]
          exact List.mem_cons_self _ _
        · rw [List.map_cons]
          exact List.mem_cons_of_mem _ h
    · intro r hr
      cases rs with
      | nil => exact absurd rfl hne
      | cons r0 rest =>
        rw [maxRunDate]
        rcases List.mem_cons.mp hr with rfl | hr2
        · exact foldl_max_ge_init rest r.run_date
        · exact foldl_max_ub rest r0.run_date r hr2
  · intro d c
    rfl

def sampleLedger : List RunRecord := [⟨⟨2024, 6, 1⟩, 5⟩, ⟨⟨2023, 1, 2⟩, 0⟩]

theorem claim_C7_witness :
    ((get_last_run_date (some sampleLedger)).2 = dateToDt (maxRunDate sampleLedger) ∧
      maxRunDate sampleLedger ∈ sampleLedger.map (fun r => r.run_date) ∧
      ∀ r ∈ sampleLedger, dateLt (maxRunDate sampleLedger) r.run_date = false) ∧
    (get_last_run_date (some (update_run_metadata [] ⟨2024, 6, 1⟩ 5))).2 =
      dateToDt ⟨2024, 6, 1⟩ :=
  ⟨claim_C7_ledger.2.2.1 sampleLedger (by decide),
    claim_C7_ledger.2.2.2 ⟨2024, 6, 1⟩ 5⟩

/-! ### The orchestrator (`main`) -/

/-- The run environment: the catalog the metastore returns, whether each
dispatched download-and-process worker returns a result (`false` = it
raises and `future.result()` re-raises), the ledger store contents, and
today's date. -/
structure Env where
  datasets : List Dataset
  downloadOk : List Char → Bool
  ledger : Option (List RunRecord)
  today : PyDate

/-- `dataset["distribution"][0]["downloadURL"].strip()` — direct indexing
with no handler around it: a missing or empty `distribution`, or a
missing `downloadURL`, raises. -/
def extract_url (d : Dataset) : Except Unit (List Char) :=
  match d.distribution with
  | none => .error ()
  | some [] => .error ()
  | some (none :: _) => .error ()
  | some (some u :: _) => .ok (pyStrip u)

/-- The URL-building loop of `main`: the first raising descriptor aborts. -/
def build_url_list : List Dataset → Except Unit (List (List Char))
  | [] => .ok []
  | d :: rest =>
    match extract_url d with
    | .error e => .error e
    | .ok u =>
      match build_url_list rest with
      | .error e => .error e
      | .ok us => .ok (u :: us)

/-- The collection loop of `main`: `processed_file_count += 1` stands
before `future.result()` inside the `try`, and the `except` arm does not
undo it, so the success arm and the failure arm both leave the counter
incremented. -/
def processed_file_count (ok : List Char → Bool) (url_list : List (List Char)) : Nat :=
  url_list.foldl (fun n u => if ok u then n + 1 else n + 1) 0

/-- Modelled from the spec (SyncOrchestrator `successCount`, which the
source does not track separately): the number of workers that returned a
result. -/
def successCount (ok : List Char → Bool) (url_list : List (List Char)) : Nat :=
  (url_list.filter ok).length

/-- `main`: read the cutoff (creating the ledger store if needed), filter
by theme then recency, extract the download URLs, dispatch the workers
and count completions, then append the ledger row.  `Except.error` is an
uncaught exception: the run aborts with no ledger append. -/
def main (env : Env) : Except Unit (List RunRecord × Nat) :=
  let r0 := get_last_run_date env.ledger
  let hospital_datasets := filter_hospital_entries env.datasets
  match filter_modified_entries hospital_datasets r0.2 with
  | .error e => .error e
  | .ok modified_datasets =>
    match build_url_list modified_datasets with
    | .error e => .error e
    | .ok url_list =>
      let cnt := if url_list.length > 0 then processed_file_count env.downloadOk url_list
        else 0
      .ok (update_run_metadata r0.1 env.today cnt, cnt)

theorem processed_file_count_eq_length (ok : List Char → Bool) :
    ∀ (l : List (List Char)), processed_file_count ok l = l.length := by
  have key : ∀ (l : List (List Char)) (n : Nat),
      l.foldl (fun n2 u => if ok u then n2 + 1 else n2 + 1) n = n + l.length := by
    intro l
    induction l with
    | nil => intro n; simp
    | cons u rest ih =>
      intro n
      rw [List.foldl_cons, ite_self, ih]
      simp only [List.length_cons]
      omega
  intro l
  rw [processed_file_count, key]
  simp

theorem dispatched_count (ok : List Char → Bool) (urls : List (List Char)) :
    (if urls.length > 0 then processed_file_count ok urls else 0) = urls.length := by
  by_cases h : urls.length > 0
  · rw [if_pos h, processed_file_count_eq_length]
  · rw [if_neg h]
    omega

/-- **C9.** When the run reaches the ledger-update step, the
`processed_count` it appends equals the number of dispatched download
URLs (the descriptors surviving both filters), independent of how many
workers succeed or fail — because the counter is incremented before
`future.result()` is examined. -/
theorem claim_C9_count_dispatched (env : Env) (modified : List Dataset)
    (urls : List (List Char))
    (hmod : filter_modified_entries (filter_hospital_entries env.datasets)
        (get_last_run_date env.ledger).2 = Except.ok modified)
    (hurl : build_url_list modified = Except.ok urls) :
    main env = Except.ok
      (update_run_metadata (get_last_run_date env.ledger).1 env.today urls.length,
        urls.length) ∧
    ∀ ok2 : List Char → Bool, main { env with downloadOk := ok2 } = main env := by
  constructor
  · simp only [main, hmod, hurl, dispatched_count]
  · intro ok2
    simp only [main, hmod, hurl, dispatched_count]

theorem claim_C9_witness :
    main { datasets :=
             [⟨ThemeVal.list [hospitalsTheme], some ("2024-06-02".toList),
               some [some ("http://x/f.csv".toList)]⟩],
           downloadOk := fun _ => false,
           ledger := some [⟨⟨2024, 6, 1⟩, 3⟩],
           today := ⟨2024, 6, 3⟩ } =
      Except.ok
        (update_run_metadata [⟨⟨2024, 6, 1⟩, 3⟩] ⟨2024, 6, 3⟩
            [pyStrip ("http://x/f.csv".toList)].length,
          [pyStrip ("http://x/f.csv".toList)].length) :=
  (claim_C9_count_dispatched _
      [⟨ThemeVal.list [hospitalsTheme], some ("2024-06-02".toList),
        some [some ("http://x/f.csv".toList)]⟩]
      [pyStrip ("http://x/f.csv".toList)] (by decide) (by decide)).1

/-- **C1.** The spec says the appended `processed_count` counts only the
workers that returned a result, so a run whose single dispatched download
fails should record `0`.  The code increments the counter before calling
`future.result()`, so the failed worker is counted anyway: on such a run
the appended row carries `processed_count = 1` while the number of
workers that returned a result is `0`. -/
theorem claim_C1_counted_despite_failure :
    main { datasets :=
             [⟨ThemeVal.list [hospitalsTheme], some ("2024-06-02".toList),
               some [some ("http://x/f.csv".toList)]⟩],
           downloadOk := fun _ => false,
           ledger := some [],
           today := ⟨2024, 6, 3⟩ } =
      Except.ok ([⟨⟨2024, 6, 3⟩, 1⟩], 1) ∧
    successCount (fun _ => false) [pyStrip ("http://x/f.csv".toList)] = 0 := by
  constructor <;> decide

/-- **C2 (counterexample).** A per-record malformation can escape its
stage: a descriptor that survives both filters but has no `distribution`
field raises during URL extraction in `main`, aborting the run before the
ledger append — the run does not reach its terminal state. -/
theorem claim_C2_counterexample :
    main { datasets :=
             [⟨ThemeVal.list [hospitalsTheme], some ("2024-06-02".toList), none⟩],
           downloadOk := fun _ => true,
           ledger := some [],
           today := ⟨2024, 6, 3⟩ } = Except.error () := by
  decide

/-- **C2 (amended).** Malformed records are recovered inside the theme and
recency filters, and worker failures are recovered in the collection
loop, so whenever the recency comparison does not raise and every
surviving descriptor yields a download URL, the run reaches its terminal
state and appends exactly one ledger row — regardless of how many workers
fail.  But a surviving descriptor with a missing or empty `distribution`
(or missing `downloadURL`) raises during URL extraction and aborts the
run before the append (see the counterexample). -/
theorem claim_C2_amended (env : Env) (modified : List Dataset)
    (urls : List (List Char))
    (hmod : filter_modified_entries (filter_hospital_entries env.datasets)
        (get_last_run_date env.ledger).2 = Except.ok modified)
    (hurl : build_url_list modified = Except.ok urls) :
    ∃ cnt : Nat,
      main env = Except.ok
        ((get_last_run_date env.ledger).1 ++ [⟨env.today, cnt⟩], cnt) := by
  refine ⟨urls.length, ?_⟩
  simp only [main, hmod, hurl, dispatched_count]
  rfl

theorem claim_C2_witness :
    ∃ cnt : Nat,
      main { datasets :=
               [⟨ThemeVal.list [hospitalsTheme], some ("2024-06-02".toList),
                 some [some ("http://x/f.csv".toList)]⟩,
                ⟨ThemeVal.list [hospitalsTheme], some ("not-a-date".toList), none⟩,
                ⟨ThemeVal.missing, some ("2024-06-02".toList), none⟩],
             downloadOk := fun _ => false,
             ledger := some [],
             today := ⟨2024, 6, 3⟩ } =
        Except.ok (([] : List RunRecord) ++ [⟨⟨2024, 6, 3⟩, cnt⟩], cnt) :=
  claim_C2_amended _
    [⟨ThemeVal.list [hospitalsTheme], some ("2024-06-02".toList),
      some [some ("http://x/f.csv".toList)]⟩]
    [pyStrip ("http://x/f.csv".toList)] (by decide) (by decide)

end HospitalFiles
